import Mathlib

/-!
Verification of the core numeric algorithms of the primality-test-comparison
repository: the Newton integer square root and trial-division tests
(src/algorithms/trial_division_newton.rs, trial_division_sqrt.rs), the
Miller-Rabin modular exponentiation (src/algorithms/miller_rabin.rs), the AKS
smallest-modulus search and polynomial ring operations (src/algorithms/aks.rs),
and the Sieve of Eratosthenes (src/algorithms/sieve_of_eratosthenes.rs).

Machine integers are embedded as `Nat`.  Wherever the Rust source performs
an operation whose result can exceed the machine width, the embedding either
carries the exact value (when the Rust code uses u128 intermediates that
provably cannot overflow, e.g. `newton_sqrt_integer`, `mod_pow`) or applies
an explicit `% 2^64` at the place where the 64-bit hardware wraps.
-/

namespace PrimalityComparison

/-! ## Newton integer square root (trial_division_newton.rs, lines 25-37)

Rust source:
```
fn newton_sqrt_integer(n: u64) -> u64 {
    let n_u128: u128 = n as u128;
    let mut a: u128 = n_u128;
    let mut b: u128 = (n_u128 + 1) / 2;
    while b < a {
        a = b;
        b = (a * a + n_u128) / (2 * a);
    }
    a as u64
}
```
All intermediates are u128.  For `n < 2^64` the largest value ever formed is
`a * a + n` with `a <= (n+1)/2 < 2^63`, so `a * a + n < 2^126 + 2^64 < 2^128`:
the u128 arithmetic is exact and the `Nat` embedding below is faithful.
-/

/-- The loop `while b < a { a = b; b = (a*a + n)/(2*a) }` of
`newton_sqrt_integer`, with `a` the current iterate and `b` the next one. -/
def newtonAux (n a b : ℕ) : ℕ :=
  if b < a then newtonAux n b ((b * b + n) / (2 * b)) else a
termination_by a
decreasing_by exact ‹b < a›

/-- `newton_sqrt_integer` from trial_division_newton.rs. -/
def newton_sqrt_integer (n : ℕ) : ℕ :=
  newtonAux n n ((n + 1) / 2)

/-- Any Newton step starting at a positive point lands at or above `√n`:
`(a*a + n) / (2*a) ≥ ⌊√n⌋` (integer AM-GM). -/
theorem sqrt_le_newton_step (n a : ℕ) (ha : 1 ≤ a) :
    Nat.sqrt n ≤ (a * a + n) / (2 * a) := by
  have h2a : 0 < 2 * a := by omega
  rw [Nat.le_div_iff_mul_le h2a]
  have hs : Nat.sqrt n * Nat.sqrt n ≤ n := by
    have := Nat.sqrt_le' n
    nlinarith [this]
  have hamgm : 2 * a * Nat.sqrt n ≤ a * a + Nat.sqrt n * Nat.sqrt n := by
    have := two_mul_le_add_sq a (Nat.sqrt n)
    nlinarith [this]
  calc Nat.sqrt n * (2 * a) = 2 * a * Nat.sqrt n := by ring
    _ ≤ a * a + Nat.sqrt n * Nat.sqrt n := hamgm
    _ ≤ a * a + n := by omega

/-- While the iterate is still above `⌊√n⌋`, the Newton step strictly
decreases it. -/
theorem newton_step_lt (n a : ℕ) (ha : Nat.sqrt n < a) :
    (a * a + n) / (2 * a) < a := by
  have h2a : 0 < 2 * a := by omega
  rw [Nat.div_lt_iff_lt_mul h2a]
  have hn : n < a * a := Nat.sqrt_lt.mp ha
  nlinarith

/-- The Newton loop, entered at any `a ≥ ⌊√n⌋` with `a ≥ 1` and `n ≥ 1`,
returns exactly `⌊√n⌋`. -/
theorem newtonAux_eq_sqrt (n : ℕ) (hn : 1 ≤ n) : ∀ a, Nat.sqrt n ≤ a → 1 ≤ a →
    newtonAux n a ((a * a + n) / (2 * a)) = Nat.sqrt n := by
  have hs1 : 1 ≤ Nat.sqrt n := by
    rw [Nat.one_le_iff_ne_zero, Ne, Nat.sqrt_eq_zero]; omega
  intro a
  induction a using Nat.strong_induction_on with
  | _ a ih =>
    intro hsa ha1
    rw [newtonAux]
    by_cases hlt : (a * a + n) / (2 * a) < a
    · rw [if_pos hlt]
      have hb1 : 1 ≤ (a * a + n) / (2 * a) :=
        le_trans hs1 (sqrt_le_newton_step n a ha1)
      exact ih _ hlt (sqrt_le_newton_step n a ha1) hb1
    · rw [if_neg hlt]
      by_contra hne
      have : Nat.sqrt n < a := lt_of_le_of_ne hsa (fun h => hne h.symm)
      exact hlt (newton_step_lt n a this)

/-- `newton_sqrt_integer` computes exactly the integer square root. -/
theorem newton_sqrt_integer_eq_sqrt (n : ℕ) :
    newton_sqrt_integer n = Nat.sqrt n := by
  unfold newton_sqrt_integer
  rcases Nat.eq_zero_or_pos n with h0 | hpos
  · subst h0; rw [newtonAux]; simp
  · have hstep : (n + 1) / 2 = (n * n + n) / (2 * n) := by
      have := Nat.mul_div_mul_left (n + 1) 2 hpos
      calc (n + 1) / 2 = n * (n + 1) / (n * 2) := this.symm
        _ = (n * n + n) / (2 * n) := by ring_nf
    rcases Nat.lt_or_ge n 2 with hsmall | hbig
    · interval_cases n
      · rw [newtonAux]; simp [newtonAux]
    · have h1 : Nat.sqrt n < n := Nat.sqrt_lt_self hbig
      rw [newtonAux, hstep]
      have hlt : (n * n + n) / (2 * n) < n := newton_step_lt n n h1
      rw [if_pos hlt]
      have hb1 : 1 ≤ (n * n + n) / (2 * n) :=
        le_trans (by rw [Nat.one_le_iff_ne_zero, Ne, Nat.sqrt_eq_zero]; omega)
          (sqrt_le_newton_step n n (by omega))
      exact newtonAux_eq_sqrt n hpos _ (sqrt_le_newton_step n n (by omega)) hb1

/-! ## Modular exponentiation (miller_rabin.rs, lines 47-65)

Rust source:
```
fn mod_pow(base: u64, mut exp: u64, m: u64) -> u64 {
    if m == 1 { return 0; }
    let m128 = m as u128;
    let mut base128 = (base % m) as u128;
    let mut result: u128 = 1;
    while exp > 0 {
        if exp & 1 == 1 { result = (result * base128) % m128; }
        exp >>= 1;
        base128 = (base128 * base128) % m128;
    }
    result as u64
}
```
`result` and `base128` always stay below `m ≤ 2^64 - 1`, so every u128
product is below `2^128` and the u128 arithmetic is exact; the `Nat`
embedding is faithful for all u64 inputs with `m ≥ 1` (for `m = 0` the Rust
code panics on `base % m`; the claim excludes that case). -/

/-- The `while exp > 0` loop of `mod_pow`: `b` is `base128`, `res` is
`result`; one iteration multiplies `res` by `b` when `exp` is odd, halves
`exp` and squares `b`. -/
def modPowLoop (m : ℕ) : ℕ → ℕ → ℕ → ℕ
  | 0, _, res => res
  | e + 1, b, res =>
    modPowLoop m ((e + 1) / 2) (b * b % m)
      (if (e + 1) % 2 = 1 then res * b % m else res)
termination_by e => e
decreasing_by exact Nat.div_lt_self (Nat.succ_pos e) (by omega)

/-- `mod_pow` from miller_rabin.rs. -/
def mod_pow (base exp m : ℕ) : ℕ :=
  if m = 1 then 0 else modPowLoop m exp (base % m) 1

/-- Loop invariant: `modPowLoop m e b res = res * b^e % m` whenever `res`
is already reduced mod `m`. -/
theorem modPowLoop_eq (m : ℕ) (hm : 2 ≤ m) :
    ∀ e b res, res < m → modPowLoop m e b res = res * b ^ e % m := by
  intro e
  induction e using Nat.strong_induction_on with
  | _ e ih =>
    intro b res hres
    match e with
    | 0 => simp [modPowLoop, Nat.mod_eq_of_lt hres]
    | e + 1 =>
      rw [modPowLoop]
      have hhalf : (e + 1) / 2 < e + 1 := Nat.div_lt_self (Nat.succ_pos e) (by omega)
      have hres' : (if (e + 1) % 2 = 1 then res * b % m else res) < m := by
        split
        · exact Nat.mod_lt _ (by omega)
        · exact hres
      rw [ih _ hhalf _ _ hres']
      have hcong : (if (e + 1) % 2 = 1 then res * b % m else res) * (b * b % m) ^ ((e + 1) / 2)
          ≡ res * b ^ (e + 1) [MOD m] := by
        have hsq : (b * b % m) ^ ((e + 1) / 2) ≡ (b * b) ^ ((e + 1) / 2) [MOD m] :=
          (Nat.mod_modEq (b * b) m).pow _
        have hfst : (if (e + 1) % 2 = 1 then res * b % m else res)
            ≡ res * b ^ ((e + 1) % 2) [MOD m] := by
          split
          · next hodd => rw [hodd, pow_one]; exact Nat.mod_modEq _ m
          · next heven =>
            have h0 : (e + 1) % 2 = 0 := by omega
            rw [h0, pow_zero, mul_one]
        calc (if (e + 1) % 2 = 1 then res * b % m else res) * (b * b % m) ^ ((e + 1) / 2)
            ≡ res * b ^ ((e + 1) % 2) * (b * b) ^ ((e + 1) / 2) [MOD m] := hfst.mul hsq
          _ = res * b ^ (e + 1) := by
              rw [mul_assoc, ← pow_two, ← pow_mul, ← pow_add]
              congr 2
              omega
      exact hcong

/-! ## Multiplicative order and smallest-modulus search (aks.rs, lines 84-116)

Rust source:
```
fn find_smallest_r(n: u64) -> u64 {
    let log_n_sq = ((n as f64).log2().powi(2)).ceil() as u64;
    for r in 2.. {
        if gcd(n, r) != 1 { continue; }
        let order = multiplicative_order(n, r);
        if order > log_n_sq { return r; }
    }
    unreachable!()
}

fn multiplicative_order(n: u64, r: u64) -> u64 {
    let n_mod = n % r;
    let mut current = n_mod;
    for k in 1..=r {
        if current == 1 { return k; }
        current = (current * n_mod) % r;
    }
    r
}
```
The threshold `log_n_sq` is computed through the platform libm `f64::log2`,
whose exact value the source does not determine; the embedding therefore
takes the threshold as an explicit parameter `T` and every property is
proved for all possible values of `T`, which covers whatever value
`((n as f64).log2().powi(2)).ceil() as u64` takes.  The u64 products
`current * n_mod` stay below `r^2`; the embedding carries them exactly,
which matches the hardware for every `r ≤ 2^32` (in particular for every
value the search actually visits before returning, whenever the returned
`r` is at most `2^32`). -/

/-- The `for k in 1..=r` loop of `multiplicative_order`: `fuel` counts the
iterations left, `k` is the loop counter, `current` the running power. -/
def multOrderLoop (n_mod r : ℕ) : ℕ → ℕ → ℕ → ℕ
  | 0, _, _ => r
  | fuel + 1, k, current =>
    if current = 1 then k else multOrderLoop n_mod r fuel (k + 1) (current * n_mod % r)

/-- `multiplicative_order` from aks.rs. -/
def multiplicative_order (n r : ℕ) : ℕ :=
  multOrderLoop (n % r) r r 1 (n % r)

/-- The search predicate of the `for r in 2..` loop in `find_smallest_r`:
`r` is accepted when it is at least 2 (the loop starts there), is coprime
to `n`, and the computed order exceeds the threshold. -/
def validR (n T r : ℕ) : Prop :=
  2 ≤ r ∧ Nat.gcd n r = 1 ∧ T < multiplicative_order n r

instance validR.decidable (n T r : ℕ) : Decidable (validR n T r) := by
  unfold validR; infer_instance

/-- `multOrderLoop`, started at step `k` with the correct running power,
returns the least exponent `j ≥ k` with `n_mod^j % r = 1` if one exists
with `j < k + fuel`, and otherwise returns `r`. -/
theorem multOrderLoop_spec (n_mod r : ℕ) :
    ∀ fuel k, 1 ≤ k →
    (∃ j, k ≤ j ∧ j < k + fuel ∧ n_mod ^ j % r = 1) →
    (∃ j, k ≤ j ∧ n_mod ^ j % r = 1 ∧
      multOrderLoop n_mod r fuel k (n_mod ^ k % r) = j ∧
      ∀ i, k ≤ i → i < j → n_mod ^ i % r ≠ 1) := by
  intro fuel
  induction fuel with
  | zero =>
    intro k hk hex
    obtain ⟨j, hj1, hj2, _⟩ := hex
    omega
  | succ fuel ih =>
    intro k hk hex
    rw [multOrderLoop]
    by_cases hone : n_mod ^ k % r = 1
    · exact ⟨k, le_refl k, hone, by rw [if_pos hone], fun i h1 h2 => by omega⟩
    · rw [if_neg hone]
      have hstep : n_mod ^ k % r * n_mod % r = n_mod ^ (k + 1) % r := by
        rw [Nat.mod_mul_mod, pow_succ]
      obtain ⟨j, hj1, hj2, hj3⟩ := hex
      have hex' : ∃ j, k + 1 ≤ j ∧ j < (k + 1) + fuel ∧ n_mod ^ j % r = 1 := by
        refine ⟨j, ?_, by omega, hj3⟩
        rcases Nat.eq_or_lt_of_le hj1 with h | h
        · exact absurd (h ▸ hj3) hone
        · omega
      rw [hstep]
      obtain ⟨j', h1, h2, h3, h4⟩ := ih (k + 1) (by omega) hex'
      exact ⟨j', by omega, h2, h3,
        fun i hi1 hi2 => by
          rcases Nat.eq_or_lt_of_le hi1 with h | h
          · exact h ▸ hone
          · exact h4 i (by omega) hi2⟩

/-- When `gcd n r = 1` and `r ≥ 2`, the code's order loop returns the true
multiplicative order of `n` modulo `r`: the least `j ≥ 1` with
`n^j ≡ 1 (mod r)`. -/
theorem multiplicative_order_spec (n r : ℕ) (hr : 2 ≤ r)
    (hco : Nat.gcd n r = 1) :
    1 ≤ multiplicative_order n r ∧
    n ^ multiplicative_order n r % r = 1 ∧
    ∀ i, 1 ≤ i → i < multiplicative_order n r → n ^ i % r ≠ 1 := by
  have hnm : n % r < r := Nat.mod_lt _ (by omega)
  have htot : n ^ r.totient % r = 1 := by
    have hco' : Nat.Coprime n r := hco
    have := Nat.ModEq.pow_totient hco'
    have h1r : (1 : ℕ) % r = 1 := Nat.mod_eq_of_lt (by omega)
    calc n ^ r.totient % r = 1 % r := this
      _ = 1 := h1r
  have htpos : 1 ≤ r.totient := Nat.totient_pos.mpr (by omega)
  have hex : ∃ j, 1 ≤ j ∧ j < 1 + r ∧ (n % r) ^ j % r = 1 := by
    refine ⟨r.totient, htpos, by have := Nat.totient_le r; omega, ?_⟩
    rw [← Nat.pow_mod]; exact htot
  have hpow1 : (n % r) ^ 1 % r = n % r := by
    rw [pow_one, Nat.mod_mod_of_dvd _ dvd_rfl]
  obtain ⟨j, hj1, hj2, hj3, hj4⟩ := multOrderLoop_spec (n % r) r r 1 (le_refl 1) hex
  unfold multiplicative_order
  rw [hpow1] at hj3
  rw [hj3]
  refine ⟨hj1, ?_, ?_⟩
  · rw [Nat.pow_mod]; exact hj2
  · intro i h1 h2 hcon
    exact hj4 i h1 h2 (by rw [← Nat.pow_mod]; exact hcon)

/-- For every `n ≥ 2` and every threshold `T` some `r` satisfies the search
predicate, so the `for r in 2..` loop of `find_smallest_r` terminates: any
prime `p` exceeding `n * ∏_{k=1}^{T} (n^k - 1)` works, because no power
`n^j` with `1 ≤ j ≤ T` can be `1` modulo such a `p`. -/
theorem exists_validR (n T : ℕ) (hn : 2 ≤ n) : ∃ r, validR n T r := by
  classical
  set N : ℕ := n * ∏ k ∈ Finset.range T, (n ^ (k + 1) - 1) with hN
  have hnpow : ∀ j : ℕ, 1 ≤ j → 2 ≤ n ^ j := by
    intro j hj
    calc 2 = 2 ^ 1 := by norm_num
      _ ≤ 2 ^ j := Nat.pow_le_pow_right (by omega) hj
      _ ≤ n ^ j := Nat.pow_le_pow_left hn j
  have hfac : ∀ k ∈ Finset.range T, 1 ≤ n ^ (k + 1) - 1 := by
    intro k _
    have := hnpow (k + 1) (by omega)
    omega
  have hprodpos : 1 ≤ ∏ k ∈ Finset.range T, (n ^ (k + 1) - 1) :=
    Finset.one_le_prod' hfac
  have hNn : n ≤ N := by
    calc n = n * 1 := by omega
      _ ≤ N := by rw [hN]; exact Nat.mul_le_mul_left n hprodpos
  obtain ⟨p, hpN, hp⟩ := Nat.exists_infinite_primes (N + 1)
  have hNpos : 0 < N := by omega
  refine ⟨p, hp.two_le, ?_, ?_⟩
  · have hnd : ¬ p ∣ n := fun hdvd =>
      absurd (Nat.le_of_dvd (by omega) hdvd) (by omega)
    have := (hp.coprime_iff_not_dvd.mpr hnd).symm
    exact Nat.Coprime.gcd_eq_one this
  · have hco : Nat.gcd n p = 1 := by
      have hnd : ¬ p ∣ n := fun hdvd =>
        absurd (Nat.le_of_dvd (by omega) hdvd) (by omega)
      exact Nat.Coprime.gcd_eq_one (hp.coprime_iff_not_dvd.mpr hnd).symm
    obtain ⟨h1, h2, h3⟩ := multiplicative_order_spec n p hp.two_le hco
    by_contra hle
    push_neg at hle
    -- the order is some j ≤ T with n^j ≡ 1 mod p; then p divides n^j - 1,
    -- but n^j - 1 divides N and 0 < n^j - 1 ≤ N < p
    set j := multiplicative_order n p with hj
    have hjT : j ≤ T := hle
    have hpow : 2 ≤ n ^ j := hnpow j h1
    have hdv : p ∣ n ^ j - 1 := by
      have hmeq : (1 : ℕ) ≡ n ^ j [MOD p] := by
        show 1 % p = n ^ j % p
        rw [h2, Nat.mod_eq_of_lt (by have := hp.two_le; omega)]
      exact (Nat.modEq_iff_dvd' (by omega)).mp hmeq
    have hmem : j - 1 ∈ Finset.range T := Finset.mem_range.mpr (by omega)
    have hdvN : n ^ j - 1 ∣ N := by
      have h1' : n ^ (j - 1 + 1) - 1 ∣ ∏ k ∈ Finset.range T, (n ^ (k + 1) - 1) :=
        Finset.dvd_prod_of_mem (fun k => n ^ (k + 1) - 1) hmem
      have hj1 : j - 1 + 1 = j := by omega
      rw [hj1] at h1'
      exact h1'.trans (dvd_mul_left _ n)
    have hpN : p ∣ N := hdv.trans hdvN
    exact absurd (Nat.le_of_dvd hNpos hpN) (by omega)

/-- `find_smallest_r` from aks.rs, with the float-derived threshold
`log_n_sq` taken as the parameter `T` (see the section comment above): the
first `r ≥ 2` with `gcd(n, r) = 1` whose computed order exceeds `T`.
For `n ≤ 1` the Rust loop would never return; the claims only concern
`n ≥ 2`, and the embedding returns 0 on that dead branch. -/
def find_smallest_r (n T : ℕ) : ℕ :=
  if h : 2 ≤ n then Nat.find (exists_validR n T h) else 0

/-- The expected-coefficient rule of `check_polynomial_congruence`
(aks.rs, lines 170-177): position 0 carries `a % n`, position `n % r`
carries 1, all other positions 0. -/
def expected_coeff (n r a i : ℕ) : ℕ :=
  if i = 0 then a % n else if i = n % r then 1 else 0

/-- Modelled from the spec: the canonical AKS right-hand side `X^(n mod r) + a`
as an element of the ring of polynomials modulo `(X^r - 1, n)`: the
coefficient at position `i` is the sum of the contribution 1 at position
`n mod r` and the contribution `a mod n` at position 0, reduced mod `n` —
with the two contributions added together when the positions coincide.
This is the reference the code's `expected_coeff` is compared against. -/
def canonical_rhs_coeff (n r a i : ℕ) : ℕ :=
  ((if i = n % r then 1 else 0) + (if i = 0 then a % n else 0)) % n

/-- The value returned by `find_smallest_r` satisfies the search predicate. -/
theorem find_smallest_r_valid (n T : ℕ) (hn : 2 ≤ n) :
    validR n T (find_smallest_r n T) := by
  unfold find_smallest_r
  rw [dif_pos hn]
  exact Nat.find_spec (exists_validR n T hn)

/-- No smaller `r` satisfies the search predicate. -/
theorem find_smallest_r_min (n T : ℕ) (hn : 2 ≤ n) :
    ∀ r, validR n T r → find_smallest_r n T ≤ r := by
  intro r hr
  unfold find_smallest_r
  rw [dif_pos hn]
  exact Nat.find_min' (exists_validR n T hn) hr

/-- The returned modulus is coprime to `n`, hence does not divide it. -/
theorem find_smallest_r_not_dvd (n T : ℕ) (hn : 2 ≤ n) :
    n % find_smallest_r n T ≠ 0 := by
  obtain ⟨h2, hgcd, _⟩ := find_smallest_r_valid n T hn
  intro h0
  have hdvd : find_smallest_r n T ∣ n := Nat.dvd_of_mod_eq_zero h0
  have := Nat.gcd_eq_right hdvd
  omega

/-! ## Polynomial ring operations (aks.rs, lines 188-227)

Rust source:
```
fn poly_mul_mod(a: &[u64], b: &[u64], r: u64, n: u64) -> Vec<u64> {
    let r_usize = r as usize;
    let mut result = vec![0u64; r_usize];
    for i in 0..r_usize {
        for j in 0..r_usize {
            if a[i] == 0 || b[j] == 0 { continue; }
            let coeff = ((a[i] as u128 * b[j] as u128) % n as u128) as u64;
            let pos = (i + j) % r_usize;
            result[pos] = (result[pos] + coeff) % n;
        }
    }
    result
}

fn poly_pow_mod(poly: &[u64], mut exp: u64, r: u64, n: u64) -> Vec<u64> {
    let r_usize = r as usize;
    let mut result = vec![0u64; r_usize];
    result[0] = 1;
    let mut base = poly.to_vec();
    while exp > 0 {
        if exp % 2 == 1 { result = poly_mul_mod(&result, &base, r, n); }
        exp /= 2;
        if exp > 0 { base = poly_mul_mod(&base, &base, r, n); }
    }
    result
}
```
Coefficient vectors are embedded as `List ℕ`; reads `a[i]` become
`a.getD i 0`, which agrees with the Rust indexing whenever `i` is in
bounds (the claims supply `a.length = r`).  The u128 product and its
reduction `% n` are exact.  The u64 addition `result[pos] + coeff` wraps
at `2^64` on the hardware (both summands are below `n`, so this can only
happen for `n > 2^63`); the embedding applies the same `% 2^64` wrap. -/

/-- One inner-loop body of `poly_mul_mod`: add the `(i, j)` product term
into the accumulator, skipping zero factors. -/
def polyMulStep (a b : List ℕ) (r n : ℕ) (acc : List ℕ) (i j : ℕ) : List ℕ :=
  if a.getD i 0 = 0 ∨ b.getD j 0 = 0 then acc
  else
    let coeff := a.getD i 0 * b.getD j 0 % n
    let pos := (i + j) % r
    acc.set pos ((acc.getD pos 0 + coeff) % 2 ^ 64 % n)

/-- `poly_mul_mod` from aks.rs. -/
def poly_mul_mod (a b : List ℕ) (r n : ℕ) : List ℕ :=
  (List.range r).foldl
    (fun acc i => (List.range r).foldl (fun acc2 j => polyMulStep a b r n acc2 i j) acc)
    (List.replicate r 0)

/-- The `while exp > 0` loop of `poly_pow_mod`. -/
def polyPowLoop (r n : ℕ) : ℕ → List ℕ → List ℕ → List ℕ
  | 0, _, res => res
  | e + 1, base, res =>
    let res' := if (e + 1) % 2 = 1 then poly_mul_mod res base r n else res
    let e' := (e + 1) / 2
    polyPowLoop r n e' (if 0 < e' then poly_mul_mod base base r n else base) res'
termination_by e => e
decreasing_by exact Nat.div_lt_self (Nat.succ_pos e) (by omega)

/-- `poly_pow_mod` from aks.rs. -/
def poly_pow_mod (poly : List ℕ) (exp r n : ℕ) : List ℕ :=
  polyPowLoop r n exp poly ((List.replicate r 0).set 0 1)

/-- `poly_mul_mod` always returns a vector of length exactly `r` whose
entries are all reduced modulo `n`. -/
theorem poly_mul_mod_invariant (a b : List ℕ) (r n : ℕ) (hn : 1 ≤ n) :
    (poly_mul_mod a b r n).length = r ∧ ∀ x ∈ poly_mul_mod a b r n, x < n := by
  unfold poly_mul_mod
  have hstep : ∀ (acc : List ℕ) i j,
      acc.length = r → (∀ x ∈ acc, x < n) →
      (polyMulStep a b r n acc i j).length = r ∧
        ∀ x ∈ polyMulStep a b r n acc i j, x < n := by
    intro acc i j hlen hmem
    unfold polyMulStep
    split
    · exact ⟨hlen, hmem⟩
    · refine ⟨by rw [List.length_set]; exact hlen, ?_⟩
      intro x hx
      rcases List.mem_or_eq_of_mem_set hx with h | h
      · exact hmem x h
      · rw [h]; exact Nat.mod_lt _ (by omega)

  have hinner : ∀ (l : List ℕ) (acc : List ℕ) i,
      acc.length = r → (∀ x ∈ acc, x < n) →
      (l.foldl (fun acc2 j => polyMulStep a b r n acc2 i j) acc).length = r ∧
        ∀ x ∈ l.foldl (fun acc2 j => polyMulStep a b r n acc2 i j) acc, x < n := by
    intro l
    induction l with
    | nil => intro acc i h1 h2; exact ⟨h1, h2⟩
    | cons hd tl ih =>
      intro acc i h1 h2
      obtain ⟨h1', h2'⟩ := hstep acc i hd h1 h2
      exact ih _ i h1' h2'
  have houter : ∀ (l : List ℕ) (acc : List ℕ),
      acc.length = r → (∀ x ∈ acc, x < n) →
      (l.foldl (fun acc i => (List.range r).foldl
        (fun acc2 j => polyMulStep a b r n acc2 i j) acc) acc).length = r ∧
        ∀ x ∈ l.foldl (fun acc i => (List.range r).foldl
          (fun acc2 j => polyMulStep a b r n acc2 i j) acc) acc, x < n := by
    intro l
    induction l with
    | nil => intro acc h1 h2; exact ⟨h1, h2⟩
    | cons hd tl ih =>
      intro acc h1 h2
      obtain ⟨h1', h2'⟩ := hinner (List.range r) acc hd h1 h2
      exact ih _ h1' h2'
  refine houter (List.range r) (List.replicate r 0) (List.length_replicate r 0) ?_
  intro x hx
  rw [List.eq_of_mem_replicate hx]
  omega

/-- `poly_pow_mod` always returns a vector of length exactly `r` whose
entries are all reduced modulo `n`, given `r ≥ 1` and `n ≥ 2`. -/
theorem poly_pow_mod_invariant (poly : List ℕ) (exp r n : ℕ)
    (hr : 1 ≤ r) (hn : 2 ≤ n) (hlen : poly.length = r) :
    (poly_pow_mod poly exp r n).length = r ∧ ∀ x ∈ poly_pow_mod poly exp r n, x < n := by
  have hloop : ∀ e base res,
      res.length = r → (∀ x ∈ res, x < n) →
      (polyPowLoop r n e base res).length = r ∧
        ∀ x ∈ polyPowLoop r n e base res, x < n := by
    intro e
    induction e using Nat.strong_induction_on with
    | _ e ih =>
      intro base res h1 h2
      match e with
      | 0 => rw [polyPowLoop]; exact ⟨h1, h2⟩
      | e + 1 =>
        rw [polyPowLoop]
        have hhalf : (e + 1) / 2 < e + 1 := Nat.div_lt_self (Nat.succ_pos e) (by omega)
        have hres' : (if (e + 1) % 2 = 1 then poly_mul_mod res base r n else res).length = r ∧
            ∀ x ∈ (if (e + 1) % 2 = 1 then poly_mul_mod res base r n else res), x < n := by
          split
          · exact poly_mul_mod_invariant res base r n (by omega)
          · exact ⟨h1, h2⟩
        exact ih _ hhalf _ _ hres'.1 hres'.2
  refine hloop exp poly _ ?_ ?_
  · rw [List.length_set, List.length_replicate]
  · intro x hx
    rcases List.mem_or_eq_of_mem_set hx with h | h
    · rw [List.eq_of_mem_replicate h]; omega
    · omega

/-! ## The f64 square-root bound of trial_division_sqrt.rs and
sieve_of_eratosthenes.rs

Both files compute their loop bound as `(n as f64).sqrt() as u64`.  Unlike
`log2`/`powf`, every step of this expression is exactly specified:

* `n as f64` rounds the integer `n` to the nearest IEEE-754 binary64
  value, ties to even (Rust reference, numeric casts);
* `f64::sqrt` is IEEE-754 correctly rounded (round to nearest, ties to
  even);
* `as u64` truncates toward zero.

For `n < 2^64` every value arising is a nonnegative number of the form
`M * 2^(k-52)` with `k ≤ 32 ≤ 52`, so the whole computation can be carried
out exactly in `ℕ`:

* `fl64 n` is `n as f64` as a natural number (for `n < 2^64` the rounded
  value is at most `2^64`, an integer);
* the correctly rounded square root of `x = fl64 n` lies in the binade
  `[2^k, 2^(k+1))` with `k = log2 (Nat.sqrt x)` and equals `M * 2^(k-52)`
  where `M` is the nearest integer to `sqrt (x * 4^(52-k))`; a tie is
  impossible because `4 * (x * 4^(52-k))` is even while `(2m+1)^2` is odd,
  so the nearest-integer choice below is exactly round-to-nearest;
* truncation toward zero is then `M / 2^(52-k)`.
-/

/-- Round the value `q * 2^sh + rem` (with `rem < 2^sh` and
`half = 2^(sh-1)`) to the nearest multiple of `2^sh`, ties to even. -/
def roundNearestEven (q rem half sh : ℕ) : ℕ :=
  if rem < half then q * 2 ^ sh
  else if half < rem then (q + 1) * 2 ^ sh
  else if q % 2 = 0 then q * 2 ^ sh else (q + 1) * 2 ^ sh

/-- `n as f64`, exactly, as a natural number (`n < 2^64`): round `n` to 53
significant bits, nearest, ties to even; `sh = (log2 n + 1) - 53` is the
number of bits dropped. -/
def fl64 (n : ℕ) : ℕ :=
  if n < 2 ^ 53 then n
  else roundNearestEven (n / 2 ^ (Nat.log2 n + 1 - 53)) (n % 2 ^ (Nat.log2 n + 1 - 53))
    (2 ^ (Nat.log2 n + 1 - 53 - 1)) (Nat.log2 n + 1 - 53)

/-- The integer nearest to `√X` (round half up; for the arguments produced
by `fsqrt_trunc` a tie `4*X = (2*√X+1)^2` is impossible by parity, so this
is exactly IEEE round-to-nearest of the scaled mantissa). -/
def nearestSqrt (X : ℕ) : ℕ :=
  if (2 * Nat.sqrt X + 1) * (2 * Nat.sqrt X + 1) ≤ 4 * X then Nat.sqrt X + 1
  else Nat.sqrt X

/-- `(n as f64).sqrt() as u64`, exactly (`n < 2^64`): the IEEE-754
correctly rounded square root of `x = fl64 n`, truncated toward zero.
With `k = log2 (Nat.sqrt x)` the binade exponent and `c = 52 - k`, the
correctly rounded root is `nearestSqrt (x * 4^c) * 2^(k-52)` and its
truncation is the division below. -/
def fsqrt_trunc (n : ℕ) : ℕ :=
  if fl64 n = 0 then 0
  else nearestSqrt (fl64 n * 4 ^ (52 - Nat.log2 (Nat.sqrt (fl64 n))))
    / 2 ^ (52 - Nat.log2 (Nat.sqrt (fl64 n)))

/-! ## Trial division (trial_division_newton.rs and trial_division_sqrt.rs,
lines 1-22 of each)

Rust source (identical in both files except for the bound):
```
pub fn is_prime(n: u64) -> bool {
    if n <= 1 { return false; }
    if n % 2 == 0 { return n == 2; }
    let mut i: u64 = 3;
    let sqrt = newton_sqrt_integer(n);      // resp. (n as f64).sqrt() as u64
    while i <= sqrt {
        if n % i == 0 { return false; }
        i += 2;
    }
    return true;
}
```
-/

/-- The `while i <= sqrt` loop shared by the trial-division variants:
returns `false` as soon as a divisor is found, stepping `i` by 2. -/
def trialLoop (n : ℕ) : ℕ → ℕ → Bool :=
  fun i bound =>
    if i ≤ bound then
      if n % i = 0 then false else trialLoop n (i + 2) bound
    else true
termination_by i bound => bound + 1 - i
decreasing_by omega

/-- `is_prime` from trial_division_newton.rs. -/
def trial_division_newton_is_prime (n : ℕ) : Bool :=
  if n ≤ 1 then false
  else if n % 2 = 0 then n == 2
  else trialLoop n 3 (newton_sqrt_integer n)

/-- `is_prime` from trial_division_sqrt.rs. -/
def trial_division_sqrt_is_prime (n : ℕ) : Bool :=
  if n ≤ 1 then false
  else if n % 2 = 0 then n == 2
  else trialLoop n 3 (fsqrt_trunc n)

/-- The naive trial-division loop, which recomputes the floating-point
square-root bound on every iteration.

Modelled from the spec: the file trial_division.rs declared in
src/algorithms/mod.rs is not present under src/; per §4.5 of the spec the
naive variant is identical to the cached variant except that it
"recompute[s] a floating-point square root every loop iteration (a
correctness-irrelevant but performance-relevant difference)". -/
def trialLoopNaive (n : ℕ) : ℕ → Bool :=
  fun i =>
    if i ≤ fsqrt_trunc n then
      if n % i = 0 then false else trialLoopNaive n (i + 2)
    else true
termination_by i => fsqrt_trunc n + 1 - i
decreasing_by omega

/-- Modelled from the spec: `is_prime` of the missing naive variant
trial_division.rs (§4.5: same contract, bound recomputed each iteration
as `(n as f64).sqrt() as u64`). -/
def trial_division_is_prime (n : ℕ) : Bool :=
  if n ≤ 1 then false
  else if n % 2 = 0 then n == 2
  else trialLoopNaive n 3

/-- `4^c = 2^c * 2^c`. -/
theorem four_pow_eq (c : ℕ) : (4 : ℕ) ^ c = 2 ^ c * 2 ^ c := by
  rw [← pow_add, show (4 : ℕ) = 2 ^ 2 by norm_num, ← pow_mul]
  congr 1
  omega

/-- Any `x ≥ 1` lies in the square binade picked out by `log2 (sqrt x)`. -/
theorem sqrt_binade (x : ℕ) (hx : x ≠ 0) :
    4 ^ Nat.log2 (Nat.sqrt x) ≤ x ∧ x < 4 ^ (Nat.log2 (Nat.sqrt x) + 1) := by
  have hs : Nat.sqrt x ≠ 0 := by rw [Ne, Nat.sqrt_eq_zero]; exact hx
  constructor
  · have h1 : 2 ^ Nat.log2 (Nat.sqrt x) ≤ Nat.sqrt x := Nat.log2_self_le hs
    calc 4 ^ Nat.log2 (Nat.sqrt x)
        = 2 ^ Nat.log2 (Nat.sqrt x) * 2 ^ Nat.log2 (Nat.sqrt x) := four_pow_eq _
      _ ≤ Nat.sqrt x * Nat.sqrt x := Nat.mul_le_mul h1 h1
      _ ≤ x := by have := Nat.sqrt_le' x; nlinarith [this]
  · have h2 : Nat.sqrt x < 2 ^ (Nat.log2 (Nat.sqrt x) + 1) := Nat.lt_log2_self
    calc x < 2 ^ (Nat.log2 (Nat.sqrt x) + 1) * 2 ^ (Nat.log2 (Nat.sqrt x) + 1) :=
        Nat.sqrt_lt.mp h2
      _ = 4 ^ (Nat.log2 (Nat.sqrt x) + 1) := (four_pow_eq _).symm

/-- Exact description of the binary64 rounding of a large integer: writing
`L = log2 n + 1` for the bit length and `sh = L - 53`, `fl64 n` is within
`2^(sh-1)` of `n`, still at least `2^(L-1)`, and at most `2^L`. -/
theorem fl64_spec (n : ℕ) (h : 2 ^ 53 ≤ n) :
    n ≤ fl64 n + 2 ^ (Nat.log2 n + 1 - 54) ∧
    fl64 n ≤ n + 2 ^ (Nat.log2 n + 1 - 54) ∧
    2 ^ Nat.log2 n ≤ fl64 n ∧
    fl64 n ≤ 2 ^ (Nat.log2 n + 1) := by
  have hn0 : n ≠ 0 := by positivity
  have hlog : 53 ≤ Nat.log2 n := by
    by_contra hcon
    push_neg at hcon
    have := (Nat.log2_lt hn0).mp hcon
    have h2 : (2 : ℕ) ^ Nat.log2 n ≤ 2 ^ 52 := by
      exact Nat.pow_le_pow_right (by omega) (by omega)
    have h3 : n < 2 ^ 53 := by
      calc n < 2 ^ (Nat.log2 n + 1) := Nat.lt_log2_self
        _ ≤ 2 ^ 53 := Nat.pow_le_pow_right (by omega) (by omega)
    omega
  unfold fl64 roundNearestEven
  rw [if_neg (by omega)]
  set L : ℕ := Nat.log2 n + 1 with hL
  set sh : ℕ := L - 53 with hsh
  have hsh1 : 1 ≤ sh := by omega
  have hshL : sh ≤ L - 1 := by omega
  set q : ℕ := n / 2 ^ sh with hq
  set rem : ℕ := n % 2 ^ sh with hrem
  have hdm : 2 ^ sh * q + rem = n := Nat.div_add_mod n (2 ^ sh)
  have hremlt : rem < 2 ^ sh := Nat.mod_lt _ (by positivity)
  have hhalf : 2 ^ (sh - 1) + 2 ^ (sh - 1) = 2 ^ sh := by
    rw [← two_mul, ← pow_succ']
    congr 1
    omega
  have hL54 : L - 54 = sh - 1 := by omega
  have hsucc : (q + 1) * 2 ^ sh = q * 2 ^ sh + 2 ^ sh := by ring
  have hcomm : 2 ^ sh * q = q * 2 ^ sh := by ring
  -- the floor multiple is at least 2^(L-1)
  have hfloor : 2 ^ (L - 1) ≤ q * 2 ^ sh := by
    have hsplit : (2 : ℕ) ^ (L - 1) = 2 ^ (L - 1 - sh) * 2 ^ sh := by
      rw [← pow_add]
      congr 1
      omega
    have hle : 2 ^ (L - 1 - sh) ≤ q := by
      rw [hq, Nat.le_div_iff_mul_le (by positivity : 0 < 2 ^ sh)]
      rw [← pow_add]
      have : L - 1 - sh + sh = L - 1 := by omega
      rw [this]
      have := Nat.log2_self_le hn0
      calc (2 : ℕ) ^ (L - 1) = 2 ^ Nat.log2 n := by
            have h1 : L - 1 = Nat.log2 n := by omega
            rw [h1]
        _ ≤ n := this
    calc (2 : ℕ) ^ (L - 1) = 2 ^ (L - 1 - sh) * 2 ^ sh := hsplit
      _ ≤ q * 2 ^ sh := Nat.mul_le_mul_right _ hle
  -- the ceiling multiple is at most 2^L
  have hceil : (q + 1) * 2 ^ sh ≤ 2 ^ L := by
    have hqlt : q < 2 ^ (L - sh) := by
      rw [hq, Nat.div_lt_iff_lt_mul (by positivity : 0 < 2 ^ sh)]
      rw [← pow_add]
      have : L - sh + sh = L := by omega
      rw [this]
      exact Nat.lt_log2_self
    have : q + 1 ≤ 2 ^ (L - sh) := hqlt
    calc (q + 1) * 2 ^ sh ≤ 2 ^ (L - sh) * 2 ^ sh := Nat.mul_le_mul_right _ this
      _ = 2 ^ L := by rw [← pow_add]; congr 1; omega
  have hLlog : 2 ^ (L - 1) = 2 ^ Nat.log2 n := by
    have h1 : L - 1 = Nat.log2 n := by omega
    rw [h1]
  rw [← hLlog, hL54]
  split
  · exact ⟨by omega, by omega, by omega, by omega⟩
  · split
    · exact ⟨by omega, by omega, by omega, by omega⟩
    · split
      · exact ⟨by omega, by omega, by omega, by omega⟩
      · exact ⟨by omega, by omega, by omega, by omega⟩

/-- A square of an odd number is never four times anything: the tie case
of `nearestSqrt` is vacuous, so its round-half-up choice coincides with
IEEE round-to-nearest-ties-even. -/
theorem nearestSqrt_no_tie (a b : ℕ) : (2 * a + 1) * (2 * a + 1) ≠ 4 * b := by
  intro h
  have : (2 * a + 1) * (2 * a + 1) = 4 * (a * a + a) + 1 := by ring
  omega

/-- `Nat.sqrt x * Nat.sqrt x ≤ x`. -/
theorem sqrt_mul_self_le (x : ℕ) : Nat.sqrt x * Nat.sqrt x ≤ x := by
  have := Nat.sqrt_le' x
  nlinarith [this]

/-- `fl64 n = n` below `2^53`. -/
theorem fl64_small (n : ℕ) (h : n < 2 ^ 53) : fl64 n = n := by
  unfold fl64
  rw [if_pos h]

/-- Arithmetic core of the upper bound: if `Xv ≤ (S² + 2S + D)·W²` with
`D ≤ S` and `W ≥ 2`, then `Xv < ((S+2)·W - 1)²`. -/
theorem fsqrt_upper_arith (S D W Xv : ℕ) (hW : 2 ≤ W) (hD : D ≤ S)
    (hX : Xv ≤ (S * S + 2 * S + D) * (W * W)) :
    Xv < ((S + 2) * W - 1) * ((S + 2) * W - 1) := by
  have h1 : 2 ≤ (S + 2) * W := le_trans hW (Nat.le_mul_of_pos_left W (by omega))
  zify [show 1 ≤ (S + 2) * W by omega]
  have hX' : (Xv : ℤ) ≤ (S * S + 2 * S + D) * (W * W) := by exact_mod_cast hX
  have hD' : (D : ℤ) ≤ S := by exact_mod_cast hD
  have hW' : (2 : ℤ) ≤ W := by exact_mod_cast hW
  nlinarith [mul_nonneg (mul_nonneg (show (0:ℤ) ≤ S + 4 by positivity)
      (show (0:ℤ) ≤ W by positivity)) (show (0:ℤ) ≤ W - 2 by omega),
    mul_nonneg (show (0:ℤ) ≤ S - D by omega)
      (show (0:ℤ) ≤ W * W by positivity),
    mul_nonneg (show (0:ℤ) ≤ W by positivity) (show (0:ℤ) ≤ W - 2 by omega)]

/-- Arithmetic core of the lower bound, floor part: if
`S²·W² ≤ Xv + D·W²` with `D·W < S` and `W ≥ 2`, then `(S·W - 1)² ≤ Xv`. -/
theorem fsqrt_lower_arith_i (S D W Xv : ℕ) (hW : 2 ≤ W) (hS : 1 ≤ S)
    (hcrux : D * W < S) (hX : S * S * (W * W) ≤ Xv + D * (W * W)) :
    (S * W - 1) * (S * W - 1) ≤ Xv := by
  have h1 : 1 ≤ S * W := le_trans (by omega) (Nat.le_mul_of_pos_left W (by omega))
  zify [h1]
  have hX' : (S : ℤ) * S * (W * W) ≤ Xv + D * (W * W) := by exact_mod_cast hX
  have hc' : (D : ℤ) * W + 1 ≤ S := by exact_mod_cast hcrux
  have hW' : (2 : ℤ) ≤ W := by exact_mod_cast hW
  nlinarith [mul_nonneg (show (0:ℤ) ≤ S - 1 - D * W by omega)
      (show (0:ℤ) ≤ W by positivity),
    mul_nonneg (mul_nonneg (show (0:ℤ) ≤ S by positivity)
      (show (0:ℤ) ≤ W by positivity)) (show (0:ℤ) ≤ W - 1 by omega)]

/-- Arithmetic core of the lower bound, rounding part: under the same
hypotheses the round-up test holds at `m = S·W - 1`:
`(2·(S·W - 1) + 1)² ≤ 4·Xv`. -/
theorem fsqrt_lower_arith_ii (S D W Xv : ℕ) (hW : 2 ≤ W) (hS : 1 ≤ S)
    (hcrux : D * W < S) (hX : S * S * (W * W) ≤ Xv + D * (W * W)) :
    (2 * (S * W - 1) + 1) * (2 * (S * W - 1) + 1) ≤ 4 * Xv := by
  have h1 : 1 ≤ S * W := le_trans (by omega) (Nat.le_mul_of_pos_left W (by omega))
  zify [h1]
  have hX' : (S : ℤ) * S * (W * W) ≤ Xv + D * (W * W) := by exact_mod_cast hX
  have hc' : (D : ℤ) * W + 1 ≤ S := by exact_mod_cast hcrux
  have hW' : (2 : ℤ) ≤ W := by exact_mod_cast hW
  nlinarith [mul_nonneg (show (0:ℤ) ≤ S - 1 - D * W by omega)
      (show (0:ℤ) ≤ W by positivity),
    mul_nonneg (mul_nonneg (show (0:ℤ) ≤ S by positivity)
      (show (0:ℤ) ≤ W by positivity)) (show (0:ℤ) ≤ W - 1 by omega)]

/-- THE key fact about the floating square-root bound: for every `n < 2^64`
the value of `(n as f64).sqrt() as u64` is either `⌊√n⌋` or `⌊√n⌋ + 1`. -/
theorem fsqrt_trunc_bounds (n : ℕ) (hn : n < 2 ^ 64) :
    Nat.sqrt n ≤ fsqrt_trunc n ∧ fsqrt_trunc n ≤ Nat.sqrt n + 1 := by
  rcases Nat.eq_zero_or_pos n with h0 | hn1
  · subst h0
    have : fsqrt_trunc 0 = 0 := by
      unfold fsqrt_trunc
      rw [if_pos (by rw [fl64_small 0 (by norm_num)])]
    rw [this]
    simp
  obtain ⟨δ, hclose1, hclose2, hx1, hxup, hδs, hbigcase⟩ :
      ∃ δ, n ≤ fl64 n + δ ∧ fl64 n ≤ n + δ ∧ 1 ≤ fl64 n ∧ fl64 n ≤ 2 ^ 64 ∧
        δ ≤ Nat.sqrt n ∧
        (fl64 n < n → 2 ^ Nat.log2 n ≤ fl64 n ∧ δ = 2 ^ (Nat.log2 n - 53) ∧
          2 ^ 53 ≤ n) := by
    rcases Nat.lt_or_ge n (2 ^ 53) with hsmall | hbig
    · rw [fl64_small n hsmall]
      exact ⟨0, by omega, by omega, by omega, by omega, by omega,
        fun h => absurd h (lt_irrefl n)⟩
    · obtain ⟨hc1, hc2, hlow, hup⟩ := fl64_spec n hbig
      have hg : 53 ≤ Nat.log2 n := by
        by_contra hcon
        push_neg at hcon
        have h3 : n < 2 ^ 53 := by
          calc n < 2 ^ (Nat.log2 n + 1) := Nat.lt_log2_self
            _ ≤ 2 ^ 53 := Nat.pow_le_pow_right (by omega) (by omega)
        omega
      have hg63 : Nat.log2 n ≤ 63 := by
        have := (Nat.log2_lt (by omega : n ≠ 0)).mpr hn
        omega
      have hδval : Nat.log2 n + 1 - 54 = Nat.log2 n - 53 := by omega
      rw [hδval] at hc1 hc2
      refine ⟨2 ^ (Nat.log2 n - 53), hc1, hc2, ?_, ?_, ?_, fun _ => ⟨hlow, rfl, hbig⟩⟩
      · have : (1 : ℕ) ≤ 2 ^ Nat.log2 n := Nat.one_le_two_pow
        omega
      · calc fl64 n ≤ 2 ^ (Nat.log2 n + 1) := hup
          _ ≤ 2 ^ 64 := Nat.pow_le_pow_right (by omega) (by omega)
      · have hδ10 : (2 : ℕ) ^ (Nat.log2 n - 53) ≤ 2 ^ 10 :=
          Nat.pow_le_pow_right (by omega) (by omega)
        have hs26 : 2 ^ 26 ≤ Nat.sqrt n := by
          rw [Nat.le_sqrt]
          calc (2 : ℕ) ^ 26 * 2 ^ 26 = 2 ^ 52 := by rw [← pow_add]
            _ ≤ 2 ^ 53 := by norm_num
            _ ≤ n := hbig
        calc (2 : ℕ) ^ (Nat.log2 n - 53) ≤ 2 ^ 10 := hδ10
          _ ≤ 2 ^ 26 := by norm_num
          _ ≤ Nat.sqrt n := hs26
  set x : ℕ := fl64 n with hxdef
  have hx0 : ¬ x = 0 := by omega
  unfold fsqrt_trunc
  rw [if_neg hx0]
  obtain ⟨hbin1, hbin2⟩ := sqrt_binade x hx0
  set k : ℕ := Nat.log2 (Nat.sqrt x) with hk
  have hk32 : k ≤ 32 := by
    have hsx : Nat.sqrt x < 2 ^ 33 := by
      rw [Nat.sqrt_lt]
      calc x ≤ 2 ^ 64 := hxup
        _ < 2 ^ 33 * 2 ^ 33 := by norm_num [← pow_add]
    have hsx0 : Nat.sqrt x ≠ 0 := by rw [Ne, Nat.sqrt_eq_zero]; omega
    have := (Nat.log2_lt hsx0).mpr hsx
    omega
  set c : ℕ := 52 - k with hc
  have hc20 : 20 ≤ c := by omega
  have hP2 : 2 ≤ 2 ^ c := by
    calc (2 : ℕ) = 2 ^ 1 := by norm_num
      _ ≤ 2 ^ c := Nat.pow_le_pow_right (by omega) (by omega)
  have hQ : (4 : ℕ) ^ c = 2 ^ c * 2 ^ c := four_pow_eq c
  set X : ℕ := x * 4 ^ c with hX
  set m : ℕ := Nat.sqrt X with hm
  set s : ℕ := Nat.sqrt n with hs
  have hs1 : 1 ≤ s := by
    rw [hs, Nat.one_le_iff_ne_zero, Ne, Nat.sqrt_eq_zero]; omega
  have hssn : s * s ≤ n := sqrt_mul_self_le n
  have hnss : n < (s + 1) * (s + 1) := Nat.lt_succ_sqrt n
  unfold nearestSqrt
  rw [← hm]
  set M : ℕ := if (2 * m + 1) * (2 * m + 1) ≤ 4 * X then m + 1 else m with hMdef
  have hMm : m ≤ M ∧ M ≤ m + 1 := by
    rw [hMdef]; split <;> omega
  have hPpos : 0 < (2 : ℕ) ^ c := by positivity
  constructor
  -- LOWER BOUND: s ≤ M / 2^c
  · rw [Nat.le_div_iff_mul_le hPpos]
    rcases le_or_lt n x with hxge | hxlt
    · -- x ≥ n: X ≥ (s · 2^c)² directly
      have h2 : s * 2 ^ c ≤ m := by
        rw [hm, Nat.le_sqrt]
        calc s * 2 ^ c * (s * 2 ^ c) = s * s * (2 ^ c * 2 ^ c) := by ring
          _ = s * s * 4 ^ c := by rw [hQ]
          _ ≤ n * 4 ^ c := Nat.mul_le_mul_right _ hssn
          _ ≤ x * 4 ^ c := Nat.mul_le_mul_right _ hxge
      omega
    · -- x < n: rounding analysis, using the crux inequality δ · 2^c < s
      obtain ⟨hxlow, hδeq, hbig⟩ := hbigcase hxlt
      have hg53 : 53 ≤ Nat.log2 n := by
        by_contra hcon
        push_neg at hcon
        have h3 : n < 2 ^ 53 := by
          calc n < 2 ^ (Nat.log2 n + 1) := Nat.lt_log2_self
            _ ≤ 2 ^ 53 := Nat.pow_le_pow_right (by omega) (by omega)
        omega
      have hg63 : Nat.log2 n ≤ 63 := by
        have := (Nat.log2_lt (by omega : n ≠ 0)).mpr hn
        omega
      have hgn : 2 ^ Nat.log2 n ≤ n := Nat.log2_self_le (by omega)
      have hkg : Nat.log2 n < 2 * k + 2 := by
        have h5 : x < 2 ^ (2 * k + 2) := by
          calc x < 4 ^ (k + 1) := hbin2
            _ = 2 ^ (2 * k + 2) := by
              rw [show (4 : ℕ) = 2 ^ 2 by norm_num, ← pow_mul,
                show 2 * (k + 1) = 2 * k + 2 by omega]
        by_contra hcon
        push_neg at hcon
        have : (2 : ℕ) ^ (2 * k + 2) ≤ 2 ^ Nat.log2 n := Nat.pow_le_pow_right (by omega) hcon
        omega
      have hcrux : δ * 2 ^ c < s := by
        have hδP : δ * 2 ^ c = 2 ^ (Nat.log2 n - 1 - k) := by
          rw [hδeq, ← pow_add]
          congr 1
          omega
        rcases Nat.even_or_odd (Nat.log2 n) with ⟨u, hu⟩ | ⟨u, hu⟩
        · have hu27 : 27 ≤ u := by omega
          have hku : u ≤ k := by omega
          have hsu : 2 ^ u ≤ s := by
            rw [hs, Nat.le_sqrt]
            calc (2 : ℕ) ^ u * 2 ^ u = 2 ^ Nat.log2 n := by
                  rw [← pow_add]; congr 1; omega
              _ ≤ n := hgn
          calc δ * 2 ^ c = 2 ^ (Nat.log2 n - 1 - k) := hδP
            _ ≤ 2 ^ (u - 1) := Nat.pow_le_pow_right (by omega) (by omega)
            _ < 2 ^ u := Nat.pow_lt_pow_right (by omega) (by omega)
            _ ≤ s := hsu
        · have hu26 : 26 ≤ u := by omega
          have hku : u ≤ k := by omega
          have hsu : 2 ^ u + 1 ≤ s := by
            rw [hs, Nat.le_sqrt]
            have h6 : (2 : ℕ) ^ (u + 2) ≤ 2 ^ (2 * u) :=
              Nat.pow_le_pow_right (by omega) (by omega)
            have h7 : (2 : ℕ) ^ (u + 2) = 2 ^ (u + 1) + 2 ^ (u + 1) := by
              rw [pow_succ]; omega
            have h8 : (1 : ℕ) ≤ 2 ^ (u + 1) := Nat.one_le_two_pow
            have h9 : (2 ^ u + 1) * (2 ^ u + 1) = 2 ^ (2 * u) + 2 ^ (u + 1) + 1 := by
              have e1 : (2 : ℕ) ^ u * 2 ^ u = 2 ^ (2 * u) := by
                rw [← pow_add, show u + u = 2 * u by omega]
              have e2 : (2 : ℕ) ^ (u + 1) = 2 ^ u + 2 ^ u := by
                rw [pow_succ]; omega
              calc (2 ^ u + 1) * (2 ^ u + 1) = 2 ^ u * 2 ^ u + (2 ^ u + 2 ^ u) + 1 := by ring
                _ = 2 ^ (2 * u) + 2 ^ (u + 1) + 1 := by rw [e1, ← e2]
            have h10 : (2 : ℕ) ^ (2 * u) + 2 ^ (2 * u) = 2 ^ Nat.log2 n := by
              rw [← two_mul, ← pow_succ']
              congr 1
              omega
            calc (2 ^ u + 1) * (2 ^ u + 1) = 2 ^ (2 * u) + 2 ^ (u + 1) + 1 := h9
              _ ≤ 2 ^ (2 * u) + 2 ^ (2 * u) := by omega
              _ = 2 ^ Nat.log2 n := h10
              _ ≤ n := hgn
          calc δ * 2 ^ c = 2 ^ (Nat.log2 n - 1 - k) := hδP
            _ ≤ 2 ^ u := Nat.pow_le_pow_right (by omega) (by omega)
            _ < 2 ^ u + 1 := by omega
            _ ≤ s := hsu
      have hXlow : s * s * (2 ^ c * 2 ^ c) ≤ X + δ * (2 ^ c * 2 ^ c) := by
        have h9 : s * s ≤ x + δ := by omega
        calc s * s * (2 ^ c * 2 ^ c) ≤ (x + δ) * (2 ^ c * 2 ^ c) :=
            Nat.mul_le_mul_right _ h9
          _ = x * (2 ^ c * 2 ^ c) + δ * (2 ^ c * 2 ^ c) := by ring
          _ = X + δ * (2 ^ c * 2 ^ c) := by rw [hX, hQ]
      have hi : s * 2 ^ c - 1 ≤ m := by
        rw [hm, Nat.le_sqrt]
        exact fsqrt_lower_arith_i s δ (2 ^ c) X hP2 hs1 hcrux hXlow
      rcases le_or_lt (s * 2 ^ c) m with hge | hlt2
      · omega
      · have hmeq : m = s * 2 ^ c - 1 := by omega
        have htest : (2 * m + 1) * (2 * m + 1) ≤ 4 * X := by
          rw [hmeq]
          exact fsqrt_lower_arith_ii s δ (2 ^ c) X hP2 hs1 hcrux hXlow
        rw [hMdef, if_pos htest]
        omega
  -- UPPER BOUND: M / 2^c ≤ s + 1
  · have hup2 : M < (s + 2) * 2 ^ c → M / 2 ^ c ≤ s + 1 := by
      intro h
      have := (Nat.div_lt_iff_lt_mul hPpos).mpr h
      omega
    apply hup2
    have hXB : X < ((s + 2) * 2 ^ c - 1) * ((s + 2) * 2 ^ c - 1) := by
      apply fsqrt_upper_arith s δ (2 ^ c) X hP2 hδs
      have hexp : (s + 1) * (s + 1) = s * s + 2 * s + 1 := by ring
      have hxn' : x ≤ s * s + 2 * s + δ := by omega
      calc X = x * (2 ^ c * 2 ^ c) := by rw [hX, hQ]
        _ ≤ (s * s + 2 * s + δ) * (2 ^ c * 2 ^ c) := Nat.mul_le_mul_right _ hxn'
    have hsm : m < (s + 2) * 2 ^ c - 1 := by
      rw [hm]
      exact Nat.sqrt_lt.mpr hXB
    have hB2 : 2 ≤ (s + 2) * 2 ^ c :=
      le_trans hP2 (Nat.le_mul_of_pos_left _ (by omega))
    omega

/-- Characterization of the trial loop: it returns `true` exactly when no
candidate divisor `j` of the right parity in `[i, bound]` divides `n`. -/
theorem trialLoop_char (n bound : ℕ) : ∀ fuel i, bound + 1 - i ≤ fuel →
    (trialLoop n i bound = true ↔
      ∀ j, i ≤ j → j ≤ bound → (j - i) % 2 = 0 → n % j ≠ 0) := by
  intro fuel
  induction fuel with
  | zero =>
    intro i hfe
    rw [trialLoop, if_neg (by omega)]
    constructor
    · intro _ j hj1 hj2 _
      omega
    · intro _
      rfl
  | succ fuel ih =>
    intro i hfe
    rw [trialLoop]
    by_cases hib : i ≤ bound
    · rw [if_pos hib]
      by_cases hdvd : n % i = 0
      · rw [if_pos hdvd]
        constructor
        · intro h
          exact absurd h (by simp)
        · intro h
          exact absurd hdvd (h i (le_refl i) hib (by omega))
      · rw [if_neg hdvd]
        rw [ih (i + 2) (by omega)]
        constructor
        · intro h j hj1 hj2 hpar
          rcases Nat.lt_or_ge j (i + 2) with hlt | hge
          · have : j = i := by omega
            rw [this]
            exact hdvd
          · exact h j hge hj2 (by omega)
        · intro h j hj1 hj2 hpar
          exact h j (by omega) hj2 (by omega)
    · rw [if_neg hib]
      constructor
      · intro _ j hj1 hj2 _
        omega
      · intro _
        rfl

/-- The naive loop (bound recomputed each iteration) computes the same
function as the cached loop. -/
theorem trialLoopNaive_eq (n : ℕ) : ∀ fuel i, fsqrt_trunc n + 1 - i ≤ fuel →
    trialLoopNaive n i = trialLoop n i (fsqrt_trunc n) := by
  intro fuel
  induction fuel with
  | zero =>
    intro i hfe
    rw [trialLoopNaive, trialLoop, if_neg (by omega), if_neg (by omega)]
  | succ fuel ih =>
    intro i hfe
    rw [trialLoopNaive, trialLoop]
    by_cases hib : i ≤ fsqrt_trunc n
    · rw [if_pos hib, if_pos hib]
      by_cases hdvd : n % i = 0
      · rw [if_pos hdvd, if_pos hdvd]
      · rw [if_neg hdvd, if_neg hdvd]
        exact ih (i + 2) (by omega)
    · rw [if_neg hib, if_neg hib]

/-- Cofactor argument: a bound anywhere in `[⌊√n⌋, n)` finds an odd
divisor of an odd `n ≥ 3` exactly when the bound `⌊√n⌋` does. -/
theorem trial_bound_irrelevant (n B : ℕ) (hodd : n % 2 = 1) (hn3 : 3 ≤ n)
    (hB1 : Nat.sqrt n ≤ B) (hB2 : B < n) :
    (∀ j, 3 ≤ j → j ≤ B → (j - 3) % 2 = 0 → n % j ≠ 0) ↔
    (∀ j, 3 ≤ j → j ≤ Nat.sqrt n → (j - 3) % 2 = 0 → n % j ≠ 0) := by
  constructor
  · intro h j hj1 hj2 hj3
    exact h j hj1 (le_trans hj2 hB1) hj3
  · intro h j hj1 hj2 hj3 hdvd
    rcases le_or_lt j (Nat.sqrt n) with hle | hgt
    · exact h j hj1 hle hj3 hdvd
    · -- j > √n divides n, so the cofactor n / j ≤ √n also divides n
      have hjdvd : j ∣ n := Nat.dvd_of_mod_eq_zero hdvd
      have hj0 : 0 < j := by omega
      have hj'dvd : n / j ∣ n := Nat.div_dvd_of_dvd hjdvd
      have hjn : j < n := by omega
      have hmul : n / j * j = n := Nat.div_mul_cancel hjdvd
      have hj'2 : 2 ≤ n / j := by
        rcases Nat.lt_or_ge (n / j) 2 with hlt | hge
        · have hpos : 0 < n / j := Nat.div_pos (by omega) hj0
          have h1 : n / j = 1 := by omega
          rw [h1, one_mul] at hmul
          omega
        · exact hge
      have hj'le : n / j ≤ Nat.sqrt n := by
        have hs1 : Nat.sqrt n + 1 ≤ j := by omega
        have hnlt : n < (Nat.sqrt n + 1) * (Nat.sqrt n + 1) := Nat.lt_succ_sqrt n
        by_contra hcon
        push_neg at hcon
        have h2 : (Nat.sqrt n + 1) * (Nat.sqrt n + 1) ≤ n / j * j :=
          Nat.mul_le_mul hcon hs1
        omega
      have hj'odd : n / j % 2 = 1 := by
        rcases Nat.even_or_odd (n / j) with ⟨t, ht⟩ | ⟨t, ht⟩
        · have he : (t + t) * j = 2 * (t * j) := by ring
          rw [ht, he] at hmul
          omega
        · omega
      have hj'3 : 3 ≤ n / j := by omega
      exact h (n / j) hj'3 hj'le (by omega) (Nat.mod_eq_zero_of_dvd hj'dvd)

/-- `⌊√n⌋ + 1 < n` for every `n ≥ 3`. -/
theorem sqrt_succ_lt_self (n : ℕ) (hn : 3 ≤ n) : Nat.sqrt n + 1 < n := by
  obtain ⟨d, rfl⟩ : ∃ d, n = d + 1 := ⟨n - 1, by omega⟩
  have h1 : Nat.sqrt (d + 1) < d := by
    rw [Nat.sqrt_lt]
    nlinarith [hn]
  omega

/-- Both loops started at 3 agree whenever both bounds lie in `[⌊√n⌋, n)`,
for odd `n ≥ 3`. -/
theorem trialLoop_bound_agree (n B1 B2 : ℕ) (hodd : n % 2 = 1) (hn3 : 3 ≤ n)
    (h11 : Nat.sqrt n ≤ B1) (h12 : B1 < n)
    (h21 : Nat.sqrt n ≤ B2) (h22 : B2 < n) :
    trialLoop n 3 B1 = trialLoop n 3 B2 := by
  rw [Bool.eq_iff_iff]
  rw [trialLoop_char n B1 (B1 + 1) 3 (by omega)]
  rw [trialLoop_char n B2 (B2 + 1) 3 (by omega)]
  rw [trial_bound_irrelevant n B1 hodd hn3 h11 h12]
  rw [trial_bound_irrelevant n B2 hodd hn3 h21 h22]

/-! ## Sieve of Eratosthenes (sieve_of_eratosthenes.rs, lines 1-41)

Rust source:
```
pub fn sieve(n: u64) -> Vec<u64> {
    if n < 2 { println!(...); return vec![]; }
    let size = ((n as usize + 1) + 63) / 64; // ceiling division
    let mut is_prime = vec![!0u64; size];    // all bits set
    fn get_bit(bits: &[u64], idx: usize) -> bool {
        (bits[idx / 64] & (1u64 << (idx % 64))) != 0
    }
    fn clear_bit(bits: &mut [u64], idx: usize) {
        bits[idx / 64] &= !(1u64 << (idx % 64));
    }
    clear_bit(&mut is_prime, 0);
    clear_bit(&mut is_prime, 1);
    let sqrt = (n as f64).sqrt() as u64;
    for i in 2..=sqrt {
        if get_bit(&is_prime, i as usize) {
            for j in (i * i..=n).step_by(i as usize) {
                clear_bit(&mut is_prime, j as usize);
            }
        }
    }
    (0..=n as usize).filter(get_bit).map(as u64).collect()
}
```
The bitmap is a list of 64-bit words.  `n as usize` is the identity for
`n < 2^64` on a 64-bit target, but `n as usize + 1` wraps at `2^64`; the
embedding applies the same wrap.  An out-of-bounds word index (a Rust
panic, as does the debug-mode overflow of the same addition) is modelled
by `Option.none`.  `!(1u64 << k)` is `(2^64 - 1) ^^^ (1 <<< k)`. -/

/-- `get_bit` from sieve_of_eratosthenes.rs; `none` models the panic on an
out-of-range word index. -/
def sieve_get_bit (bits : List ℕ) (idx : ℕ) : Option Bool :=
  (bits.get? (idx / 64)).map (fun w => w &&& (1 <<< (idx % 64)) != 0)

/-- `clear_bit` from sieve_of_eratosthenes.rs; `none` models the panic on
an out-of-range word index. -/
def sieve_clear_bit (bits : List ℕ) (idx : ℕ) : Option (List ℕ) :=
  (bits.get? (idx / 64)).map
    (fun w => bits.set (idx / 64) (w &&& ((2 ^ 64 - 1) ^^^ (1 <<< (idx % 64)))))

/-- The inner marking loop `for j in (i*i..=n).step_by(i)`: `count` is the
number of steps left, `j` the current multiple. -/
def sieveInner (i n : ℕ) : ℕ → ℕ → List ℕ → Option (List ℕ)
  | 0, _, bits => some bits
  | count + 1, j, bits => (sieve_clear_bit bits j).bind (sieveInner i n count (j + i))

/-- The outer loop `for i in 2..=sqrt`: `fuel` is the number of iterations
left, `i` the current candidate. -/
def sieveOuter (n : ℕ) : ℕ → ℕ → List ℕ → Option (List ℕ)
  | 0, _, bits => some bits
  | fuel + 1, i, bits =>
    (sieve_get_bit bits i).bind fun gb =>
      if gb then
        (sieveInner i n (if i * i ≤ n then (n - i * i) / i + 1 else 0) (i * i) bits).bind
          (sieveOuter n fuel (i + 1))
      else sieveOuter n fuel (i + 1) bits

/-- `sieve` from sieve_of_eratosthenes.rs.  The final collect reads the
bitmap with the same word/bit indexing as `get_bit`; on the paths where
the loops have not already failed every index `0..=n` is in range, and
`List.getD` then agrees with the Rust indexing. -/
def sieve (n : ℕ) : Option (List ℕ) :=
  if n < 2 then some []
  else
    (sieve_clear_bit (List.replicate (((n + 1) % 2 ^ 64 + 63) / 64) (2 ^ 64 - 1)) 0).bind
      fun b1 => (sieve_clear_bit b1 1).bind
        fun b2 => (sieveOuter n (fsqrt_trunc n + 1 - 2) 2 b2).map
          fun final => (List.range (n + 1)).filter
            (fun idx => final.getD (idx / 64) 0 &&& (1 <<< (idx % 64)) != 0)

/-! ## Claim theorems -/

/-- C3: for every u64 input `n` all trial-division variants return the same
boolean; in particular the Newton variant and the floating-sqrt variant
agree on every input, and both agree with the (spec-modelled) naive
variant: the choice of square-root computation never affects the result. -/
theorem trial_division_variants_agree (n : ℕ) (hn : n < 2 ^ 64) :
    trial_division_newton_is_prime n = trial_division_sqrt_is_prime n ∧
    trial_division_sqrt_is_prime n = trial_division_is_prime n := by
  constructor
  · unfold trial_division_newton_is_prime trial_division_sqrt_is_prime
    by_cases h1 : n ≤ 1
    · rw [if_pos h1, if_pos h1]
    · rw [if_neg h1, if_neg h1]
      by_cases h2 : n % 2 = 0
      · rw [if_pos h2, if_pos h2]
      · rw [if_neg h2, if_neg h2]
        have hodd : n % 2 = 1 := by omega
        have hn3 : 3 ≤ n := by omega
        obtain ⟨hb1, hb2⟩ := fsqrt_trunc_bounds n hn
        have hlt := sqrt_succ_lt_self n hn3
        rw [newton_sqrt_integer_eq_sqrt]
        exact trialLoop_bound_agree n (Nat.sqrt n) (fsqrt_trunc n) hodd hn3
          (le_refl _) (by omega) hb1 (by omega)
  · unfold trial_division_sqrt_is_prime trial_division_is_prime
    by_cases h1 : n ≤ 1
    · rw [if_pos h1, if_pos h1]
    · rw [if_neg h1, if_neg h1]
      by_cases h2 : n % 2 = 0
      · rw [if_pos h2, if_pos h2]
      · rw [if_neg h2, if_neg h2]
        exact (trialLoopNaive_eq n (fsqrt_trunc n + 1) 3 (by omega)).symm

/-- Witness for C3 at the concrete input 25. -/
theorem trial_division_variants_agree_witness :
    (25 : ℕ) < 2 ^ 64 ∧
    (trial_division_newton_is_prime 25 = trial_division_sqrt_is_prime 25 ∧
      trial_division_sqrt_is_prime 25 = trial_division_is_prime 25) :=
  ⟨by decide, trial_division_variants_agree 25 (by decide)⟩

/-- C4: for every u64 `n` the Newton integer square root terminates and is
exact: `s = newton_sqrt_integer n` satisfies `s*s ≤ n < (s+1)*(s+1)`,
including `n = 0`, `n = 1` and `n` near `2^64 - 1` (termination is
established by the well-founded recursion of `newtonAux` itself). -/
theorem newton_sqrt_integer_exact (n : ℕ) (hn : n < 2 ^ 64) :
    newton_sqrt_integer n * newton_sqrt_integer n ≤ n ∧
    n < (newton_sqrt_integer n + 1) * (newton_sqrt_integer n + 1) := by
  rw [newton_sqrt_integer_eq_sqrt]
  exact ⟨sqrt_mul_self_le n, Nat.lt_succ_sqrt n⟩

/-- Witness for C4 at the top of the domain, `n = 2^64 - 1`. -/
theorem newton_sqrt_integer_exact_witness :
    (2 ^ 64 - 1 : ℕ) < 2 ^ 64 ∧
    (newton_sqrt_integer (2 ^ 64 - 1) * newton_sqrt_integer (2 ^ 64 - 1) ≤ 2 ^ 64 - 1 ∧
      2 ^ 64 - 1 < (newton_sqrt_integer (2 ^ 64 - 1) + 1) * (newton_sqrt_integer (2 ^ 64 - 1) + 1)) :=
  ⟨by decide, newton_sqrt_integer_exact (2 ^ 64 - 1) (by decide)⟩

/-- C5: the sieve fails on the bound `n = 2^64 - 1 = u64::MAX`: the size
computation `(n as usize + 1) + 63` overflows, so the Rust code panics
(debug: overflow on the addition; release: the wrapped size is 0 and
`clear_bit(bits, 0)` indexes `bits[0]` out of bounds) instead of
returning the primes up to `n`; the model returns `none` there. -/
theorem sieve_panics_at_u64_max : sieve (2 ^ 64 - 1) = none := by decide

/-- C7: for every `n ≥ 2` and every possible value `T` of the
float-derived threshold, the `for r in 2..` search of `find_smallest_r`
terminates (the `unreachable!()` is never reached: a valid `r` exists) and
returns the smallest `r ≥ 2` coprime to `n` whose multiplicative order
modulo `r` — the loop result is genuinely the least exponent `j ≥ 1` with
`n^j ≡ 1 (mod r)` — exceeds `T`. -/
theorem find_smallest_r_terminates_and_least (n T : ℕ) (hn : 2 ≤ n) :
    2 ≤ find_smallest_r n T ∧
    Nat.gcd n (find_smallest_r n T) = 1 ∧
    T < multiplicative_order n (find_smallest_r n T) ∧
    n ^ multiplicative_order n (find_smallest_r n T) % find_smallest_r n T = 1 ∧
    (∀ i, 1 ≤ i → i < multiplicative_order n (find_smallest_r n T) →
      n ^ i % find_smallest_r n T ≠ 1) ∧
    (∀ r, 2 ≤ r → Nat.gcd n r = 1 → T < multiplicative_order n r →
      find_smallest_r n T ≤ r) := by
  obtain ⟨h2, hgcd, hord⟩ := find_smallest_r_valid n T hn
  obtain ⟨ho1, ho2, ho3⟩ := multiplicative_order_spec n (find_smallest_r n T) h2 hgcd
  exact ⟨h2, hgcd, hord, ho2, ho3, fun r hr1 hr2 hr3 =>
    find_smallest_r_min n T hn r ⟨hr1, hr2, hr3⟩⟩

/-- Witness for C7 at `n = 2`, `T = 1` (the Rust tests record
`find_smallest_r(2) = 3`, and `⌈(log2 2)^2⌉ = 1`). -/
theorem find_smallest_r_terminates_and_least_witness :
    (2 ≤ (2 : ℕ)) ∧
    (2 ≤ find_smallest_r 2 1 ∧
      Nat.gcd 2 (find_smallest_r 2 1) = 1 ∧
      1 < multiplicative_order 2 (find_smallest_r 2 1) ∧
      2 ^ multiplicative_order 2 (find_smallest_r 2 1) % find_smallest_r 2 1 = 1 ∧
      (∀ i, 1 ≤ i → i < multiplicative_order 2 (find_smallest_r 2 1) →
        2 ^ i % find_smallest_r 2 1 ≠ 1) ∧
      (∀ r, 2 ≤ r → Nat.gcd 2 r = 1 → 1 < multiplicative_order 2 r →
        find_smallest_r 2 1 ≤ r)) :=
  ⟨by decide, find_smallest_r_terminates_and_least 2 1 (by decide)⟩

/-- C8: whenever `aks::is_prime` reaches the polynomial-congruence stage,
the modulus `r = find_smallest_r n` satisfies `gcd(n, r) = 1` (this holds
for every `n ≥ 2` and every threshold), hence `n mod r ≠ 0`, so the two
checked coefficient positions `0` and `n mod r` never coincide, and the
code's expected-coefficient rule agrees with the canonical AKS right-hand
side `X^(n mod r) + a` at every position and for every `a`. -/
theorem polynomial_congruence_positions_distinct (n T : ℕ) (hn : 2 ≤ n) :
    Nat.gcd n (find_smallest_r n T) = 1 ∧
    n % find_smallest_r n T ≠ 0 ∧
    ∀ a i, expected_coeff n (find_smallest_r n T) a i
      = canonical_rhs_coeff n (find_smallest_r n T) a i := by
  obtain ⟨h2, hgcd, _⟩ := find_smallest_r_valid n T hn
  have hnr := find_smallest_r_not_dvd n T hn
  refine ⟨hgcd, hnr, fun a i => ?_⟩
  unfold expected_coeff canonical_rhs_coeff
  by_cases c1 : i = 0
  · by_cases c2 : i = n % find_smallest_r n T
    · exact absurd (c1 ▸ c2).symm hnr
    · simp only [if_pos c1, if_neg c2, zero_add]
      rw [Nat.mod_mod_of_dvd _ dvd_rfl]
  · by_cases c2 : i = n % find_smallest_r n T
    · simp only [if_neg c1, if_pos c2, add_zero]
      rw [Nat.mod_eq_of_lt (by omega : (1 : ℕ) < n)]
    · simp only [if_neg c1, if_neg c2, add_zero]
      rw [Nat.zero_mod]

/-- Witness for C8 at `n = 2`, `T = 1`. -/
theorem polynomial_congruence_positions_distinct_witness :
    (2 ≤ (2 : ℕ)) ∧
    (Nat.gcd 2 (find_smallest_r 2 1) = 1 ∧
      2 % find_smallest_r 2 1 ≠ 0 ∧
      ∀ a i, expected_coeff 2 (find_smallest_r 2 1) a i
        = canonical_rhs_coeff 2 (find_smallest_r 2 1) a i) :=
  ⟨by decide, polynomial_congruence_positions_distinct 2 1 (by decide)⟩

/-- C9: for every base, exponent and modulus `m ≥ 1`, `mod_pow` computes
`base ^ exp % m` exactly (`0^0 = 1`; the u128 intermediates cannot
overflow), and `mod_pow base exp 1 = 0` via the early return that skips
the loop. -/
theorem mod_pow_correct (base exp m : ℕ) (hm : 1 ≤ m) :
    mod_pow base exp m = base ^ exp % m ∧ mod_pow base exp 1 = 0 := by
  constructor
  · unfold mod_pow
    by_cases h1 : m = 1
    · subst h1
      rw [if_pos rfl, Nat.mod_one]
    · rw [if_neg h1]
      have hm2 : 2 ≤ m := by omega
      rw [modPowLoop_eq m hm2 exp (base % m) 1 (by omega), one_mul, ← Nat.pow_mod]
  · unfold mod_pow
    rw [if_pos rfl]

/-- Witness for C9 at the concrete triple of the Rust unit test
`mod_pow(2, 10, 1000) == 24`. -/
theorem mod_pow_correct_witness :
    (1 ≤ (1000 : ℕ)) ∧
    (mod_pow 2 10 1000 = 2 ^ 10 % 1000 ∧ mod_pow 2 10 1 = 0) :=
  ⟨by decide, mod_pow_correct 2 10 1000 (by decide)⟩

/-- C10: for `r ≥ 1` and `n ≥ 2`, given coefficient vectors of length
exactly `r` with all entries in `[0, n)`, both `poly_mul_mod` and
`poly_pow_mod` return vectors of length exactly `r` with all entries in
`[0, n)`. -/
theorem poly_ops_preserve_length_and_range (a b poly : List ℕ) (exp r n : ℕ)
    (hr : 1 ≤ r) (hn : 2 ≤ n)
    (ha : a.length = r) (hb : b.length = r) (hpl : poly.length = r)
    (hav : ∀ x ∈ a, x < n) (hbv : ∀ x ∈ b, x < n) (hpv : ∀ x ∈ poly, x < n) :
    ((poly_mul_mod a b r n).length = r ∧ ∀ x ∈ poly_mul_mod a b r n, x < n) ∧
    ((poly_pow_mod poly exp r n).length = r ∧
      ∀ x ∈ poly_pow_mod poly exp r n, x < n) :=
  ⟨poly_mul_mod_invariant a b r n (by omega),
    poly_pow_mod_invariant poly exp r n hr hn hpl⟩

/-- Witness for C10 at `r = 2`, `n = 5`, vectors `[1, 1]`, exponent 3. -/
theorem poly_ops_preserve_length_and_range_witness :
    ((1 ≤ (2 : ℕ)) ∧ (2 ≤ (5 : ℕ))) ∧
    (((poly_mul_mod [1, 1] [1, 1] 2 5).length = 2 ∧
        ∀ x ∈ poly_mul_mod [1, 1] [1, 1] 2 5, x < 5) ∧
      ((poly_pow_mod [1, 1] 3 2 5).length = 2 ∧
        ∀ x ∈ poly_pow_mod [1, 1] 3 2 5, x < 5)) :=
  ⟨⟨by decide, by decide⟩,
    poly_ops_preserve_length_and_range [1, 1] [1, 1] [1, 1] 3 2 5
      (by decide) (by decide) (by decide) (by decide) (by decide)
      (by decide) (by decide) (by decide)⟩

end PrimalityComparison
